import Mathlib

/-!
# Verification of the S.A.K. Utility file-tree engine

Shallow embedding of the core of `sak_utiliy.py`: the cycle-safe directory
walker `fast_scan`, the POSIX permission-normalization pass of
`PermissionUpdateWorker`, the planning/execution phases of `BackupWorker.run`
(`copyTree`), and `MainWindow.find_duplicates`.

The filesystem is modelled as an oracle structure `FS`: `scandir` listings,
entry classification, `os.path.realpath`, `os.path.getsize`,
`chunked_file_hash` outcomes and `chmod`-ability are all pure functions of
the path, fixed for the duration of one operation (the code never mutates
the source tree during a run).  Machine strings are Lean `String`s; POSIX
path arithmetic (`os.path.join`, `relpath`, `basename`, `isabs`) is embedded
below.
-/

namespace SAK

/-- `s.startswith(pat)` on character lists (second argument is the pattern). -/
def charsStartWith : List Char → List Char → Bool
  | _, [] => true
  | [], _ :: _ => false
  | a :: as, b :: bs => a == b && charsStartWith as bs

/-- `s.endswith(pat)` on character lists. -/
def charsEndWith (s pat : List Char) : Bool :=
  charsStartWith s.reverse pat.reverse

/-- Python `str.endswith`. -/
def strEndsWith (s pat : String) : Bool := charsEndWith s.data pat.data

/-- Python `str.lower` (ASCII). -/
def strLower (s : String) : String := String.mk (s.data.map Char.toLower)

/-- `s.lstrip("*")`: drop leading `'*'` characters. -/
def lstripStar (s : String) : String :=
  String.mk (s.data.dropWhile (fun c => c == '*'))

/-- Split a character list on a separator character (like `str.split`,
keeping empty pieces). -/
def splitChar (c : Char) : List Char → List (List Char)
  | [] => [[]]
  | a :: as =>
    match splitChar c as with
    | [] => [[a]]
    | g :: gs => if a == c then [] :: g :: gs else (a :: g) :: gs

/-- Interleave `'/'` between path components. -/
def joinComponents : List (List Char) → List Char
  | [] => []
  | [x] => x
  | x :: y :: rest => x ++ '/' :: joinComponents (y :: rest)

/-- POSIX `os.path.isabs`: the path starts with a slash. -/
def isAbs (p : String) : Bool := charsStartWith p.data ['/']

/-- POSIX `os.path.join a b` for a single component: if `b` is absolute the
result is `b` alone, otherwise `a` + "/" + `b` (with a separator inserted
only when `a` does not already end in one, as CPython does). -/
def pyJoin (a b : String) : String :=
  if isAbs b then b
  else if a = "" then b
  else if charsEndWith a.data ['/'] then a ++ b
  else a ++ "/" ++ b

/-- Path components: split on "/" dropping empty pieces. -/
def splitPath (p : String) : List (List Char) :=
  (splitChar '/' p.data).filter (fun s => s ≠ [])

/-- Longest common prefix of two component lists (for `relpath`). -/
def commonPrefixLen : List (List Char) → List (List Char) → Nat
  | a :: as, b :: bs => if a = b then commonPrefixLen as bs + 1 else 0
  | _, _ => 0

/-- POSIX `os.path.relpath path start` on already-absolute paths: strip the
common component prefix, go up with ".." for what remains of `start`, then
down the rest of `path`; "." when the two coincide. -/
def relpath (path start : String) : String :=
  let p := splitPath path
  let s := splitPath start
  let n := commonPrefixLen p s
  let ups := List.replicate (s.length - n) ['.', '.']
  let parts := ups ++ p.drop n
  if parts = [] then "." else String.mk (joinComponents parts)

/-- POSIX `os.path.basename`: everything after the last slash. -/
def basename (p : String) : String :=
  String.mk ((splitChar '/' p.data).getLastD p.data)

/-- Classification of one `os.scandir` entry as seen by `fast_scan`:
`entry.is_dir(follow_symlinks=False)` is true exactly for real (non-symlink)
directories; symlinks (even to directories) and plain files answer false;
`error` models an entry whose classification raises (broken symlink, race). -/
inductive EntryKind
  | realDir
  | symlink
  | file
  | error
deriving DecidableEq, Repr

/-- The filesystem oracle for one operation: all observations the Python
code makes are pure functions of the path, fixed for the run.  `univ` is
the (finite) set of canonical paths; `realpath` lands in it, which is what
makes the visited-set argument terminate. -/
structure FS where
  univ : Finset String
  /-- names of the entries `os.scandir p` yields, in order -/
  entries : String → List String
  /-- classification of an entry path, per `is_dir(follow_symlinks=False)` -/
  kind : String → EntryKind
  /-- whether `os.scandir p` itself succeeds (permission, existence) -/
  ok : String → Bool
  /-- `os.path.realpath` -/
  realpath : String → String
  /-- `os.path.getsize`, `none` when it raises -/
  size : String → Option Nat
  /-- `chunked_file_hash`, `none` when it raises -/
  hashOf : String → Option String
  /-- `os.path.isdir` (follows symlinks) -/
  isDir : String → Bool
  /-- whether `os.chmod` succeeds on the path -/
  canChmod : String → Bool
  real_mem : ∀ p, realpath p ∈ univ

/-- The entry paths `os.scandir p` produces: `entry.path = os.path.join(p, name)`. -/
def FS.listing (fs : FS) (p : String) : List String :=
  (fs.entries p).map (fun n => pyJoin p n)

/-- The `dirs` list built by the scan loop: entries with
`entry.is_dir(follow_symlinks=False)` true, in listing order. -/
def FS.scanDirs (fs : FS) (p : String) : List String :=
  (fs.listing p).filter (fun q => fs.kind q == EntryKind.realDir)

/-- The `files` list built by the scan loop: non-directory entries (plain
files and symlinks, including symlinks to directories); entries whose
classification raises are skipped. -/
def FS.scanFiles (fs : FS) (p : String) : List String :=
  (fs.listing p).filter
    (fun q => fs.kind q == EntryKind.symlink || fs.kind q == EntryKind.file)

/-- One `(dir_path, [subdirs], [files])` triple yielded by `fast_scan`. -/
structure TraversalEntry where
  directoryPath : String
  subdirectoryPaths : List String
  filePaths : List String
deriving DecidableEq, Repr

/-- The loop body of `fast_scan`: pop, skip if the canonical path was
visited, otherwise mark visited, list the directory (skipping it wholesale
if `scandir` raises), yield, and push the subdirectories.  The Lean list
head is the Python stack top; `stack.extend(dirs)` makes the *last* dir the
next pop, hence `ds.reverse ++ rest`. -/
def fastScanAux (fs : FS) (stack : List String) (visited : Finset String) :
    List TraversalEntry :=
  match stack with
  | [] => []
  | p :: rest =>
    let real := fs.realpath p
    if h : real ∈ visited then
      fastScanAux fs rest visited
    else
      if fs.ok p then
        let ds := fs.scanDirs p
        ⟨p, ds, fs.scanFiles p⟩ :: fastScanAux fs (ds.reverse ++ rest) (insert real visited)
      else
        fastScanAux fs rest (insert real visited)
termination_by ((fs.univ \ visited).card, stack.length)
decreasing_by
  · apply Prod.Lex.right
    simp
  · apply Prod.Lex.left
    have hmem : fs.realpath p ∈ fs.univ \ visited :=
      Finset.mem_sdiff.mpr ⟨fs.real_mem p, h⟩
    calc (fs.univ \ insert (fs.realpath p) visited).card
        = ((fs.univ \ visited).erase (fs.realpath p)).card := by
          rw [Finset.sdiff_insert]
      _ < (fs.univ \ visited).card := Finset.card_erase_lt_of_mem hmem
  · apply Prod.Lex.left
    have hmem : fs.realpath p ∈ fs.univ \ visited :=
      Finset.mem_sdiff.mpr ⟨fs.real_mem p, h⟩
    calc (fs.univ \ insert (fs.realpath p) visited).card
        = ((fs.univ \ visited).erase (fs.realpath p)).card := by
          rw [Finset.sdiff_insert]
      _ < (fs.univ \ visited).card := Finset.card_erase_lt_of_mem hmem

/-- `fast_scan(base_path)`: the full traversal from a fresh stack and
visited-set. -/
def fastScan (fs : FS) (basePath : String) : List TraversalEntry :=
  fastScanAux fs [basePath] ∅

/-- The `all_items` enumeration of `PermissionUpdateWorker.run`: for every
root, each traversed directory followed by the files it lists. -/
def allItems (fs : FS) (roots : List String) : List String :=
  roots.foldl (fun acc base =>
    (fastScan fs base).foldl
      (fun acc e => (acc ++ [e.directoryPath]) ++ e.filePaths) acc) []

/-- `_set_perms_posix`: `os.chmod(path, 0o777 if is_dir else 0o666)`, where
`is_dir` is `os.path.isdir(path)` at application time; a chmod exception is
logged and changes nothing. -/
def setPermsPosix (fs : FS) (modes : String → Nat) (path : String) : String → Nat :=
  if fs.canChmod path then
    Function.update modes path (if fs.isDir path then 0o777 else 0o666)
  else modes

/-- The POSIX application phase of `PermissionUpdateWorker.run` (uncancelled):
fold `_set_perms_posix` over the enumerated items in order. -/
def permissionRun (fs : FS) (items : List String) (modes : String → Nat) :
    String → Nat :=
  items.foldl (setPermsPosix fs) modes

/-- Ordered association list lookup (`dict.get` / `in`). -/
def alGet {β : Type} : List (String × β) → String → Option β
  | [], _ => none
  | (k', v') :: rest, k => if k' = k then some v' else alGet rest k

/-- Ordered association list write (`dict` item assignment): replace the
value in place, or append the new key at the end. -/
def alSet {β : Type} : List (String × β) → String → β → List (String × β)
  | [], k, v => [(k, v)]
  | (k', v') :: rest, k, v =>
    if k' = k then (k, v) :: rest else (k', v') :: alSet rest k v

/-- The keys of an association list, in order. -/
def alKeys {β : Type} (m : List (String × β)) : List String := m.map (fun kv => kv.1)

/-- State of the duplicate scan: the `hashes` dict (digest → first path
seen with that digest) and the `duplicates` dict (digest → group). -/
structure DupState where
  hashes : List (String × String)
  dups : List (String × List String)

/-- The dict manipulation done for one hashed file: on a repeat digest,
append the new path to the group (creating it if needed), then append the
first-seen path if it is not already in the group; on a fresh digest,
record the path in `hashes`. -/
def dupStep (st : DupState) (filepath fileHash : String) : DupState :=
  match alGet st.hashes fileHash with
  | some first =>
    let cur := (alGet st.dups fileHash).getD [] ++ [filepath]
    let cur2 := if first ∈ cur then cur else cur ++ [first]
    ⟨st.hashes, alSet st.dups fileHash cur2⟩
  | none => ⟨alSet st.hashes fileHash filepath, st.dups⟩

/-- The guards of one loop iteration of `find_duplicates`: `none` exactly
when one of the `continue`s fires (extension filter, `getsize` failure,
minimum size, hash failure); otherwise the `(filepath, file_hash)` pair the
iteration feeds into the dicts. -/
def candOf (fs : FS) (minSize : Nat) (exts : List String)
    (dirpath filename : String) : Option (String × String) :=
  if exts ≠ [] ∧ ¬(exts.any (fun x => strEndsWith (strLower filename) x)) then none
  else
    let filepath := if ¬ isAbs filename then pyJoin dirpath (basename filename)
                    else filename
    match fs.size filepath with
    | none => none
    | some sz =>
      if sz < minSize then none
      else
        match fs.hashOf filepath with
        | none => none
        | some h => some (filepath, h)

/-- One body iteration of the inner loop of `find_duplicates`. -/
def processOne (fs : FS) (minSize : Nat) (exts : List String) (dirpath : String)
    (st : DupState) (filename : String) : DupState :=
  match candOf fs minSize exts dirpath filename with
  | some (p, h) => dupStep st p h
  | none => st

/-- `MainWindow.find_duplicates(directory, min_size, file_extensions)`:
walk the tree, process every listed file, and return only the groups with
two or more members (`len(v) > 1`). -/
def find_duplicates (fs : FS) (directory : String) (minSize : Nat)
    (exts : List String) : List (String × List String) :=
  ((fastScan fs directory).foldl
    (fun st e => e.filePaths.foldl (processOne fs minSize exts e.directoryPath) st)
    (⟨[], []⟩ : DupState)).dups.filter (fun kv => kv.2.length > 1)

/-- The `(filepath, file_hash)` pairs actually hashed, in traversal order. -/
def dupCandidates (fs : FS) (directory : String) (minSize : Nat)
    (exts : List String) : List (String × String) :=
  (fastScan fs directory).foldl
    (fun acc e => acc ++ e.filePaths.filterMap (candOf fs minSize exts e.directoryPath))
    []

/-- Folding `dupStep` over a candidate list. -/
def dupFold (L : List (String × String)) (st : DupState) : DupState :=
  L.foldl (fun st pr => dupStep st pr.1 pr.2) st

/-- The ordered occurrences of digest `k` among the hashed candidates. -/
def groupOcc (L : List (String × String)) (k : String) : List String :=
  (L.filter (fun pr => pr.2 == k)).map (fun pr => pr.1)

/-- The dict contents `find_duplicates` builds for a digest whose ordered
occurrences are the given list: no entry before the first occurrence; the
first path in `hashes` while unique; from the second occurrence on, a group
headed by the second-seen path followed by the first-seen path (collapsed
when they are the same path) and then the later occurrences in order. -/
def dupSpec : List String → Option String × Option (List String)
  | [] => (none, none)
  | [p] => (some p, none)
  | p0 :: p1 :: rest =>
    (some p0, some (if p0 = p1 then p1 :: rest else p1 :: p0 :: rest))

/-!
## Backup engine (`BackupWorker.run` / `copyTree`)

The planning phase is a sequential fold over the traversal.  The execution
phase fans the plan out to a thread pool; it is modelled as a small-step
machine driven by an arbitrary schedule of atomic events, split exactly at
the synchronization points of `copy_one` and the `as_completed` loop:
reading the cancellation flag at task start, the lock-protected counter
increment and snapshot, the signal emission *after* the lock is released,
the completion of a failing task, the cancel request itself, and the main
loop consuming one future.  Events whose guard does not hold (wrong program
counter) are no-ops, so every event list denotes a possible interleaving.
Wall-clock readings (`elapsed`, `speed`) are not modelled; an exception
anywhere in the per-task `try` block is the `copyExn` oracle. -/
structure CopyTask where
  src : String
  dst : String
  fsize : Nat
deriving DecidableEq, Repr

/-- The include test of the planning loop:
`any(fname.lower().endswith(p.lstrip("*").lower()) or p == "*" for p in patterns)`. -/
def patternMatch (patterns : List String) (fname : String) : Bool :=
  patterns.any (fun p =>
    strEndsWith (strLower fname) (strLower (lstripStar p)) || p == "*")

/-- The planning phase of `BackupWorker.run`: for every traversal entry the
destination folder is mirrored from the relative path, and one task per
matching listed file is planned with `src = os.path.join(root, fname)`,
`dst = os.path.join(dst_folder, fname)` and `fsize = getsize(src)`
(0 when `getsize` raises). -/
def buildPlan (fs : FS) (sourceDir destRoot : String) (patterns : List String) :
    List CopyTask :=
  (fastScan fs sourceDir).foldl (fun plan e =>
    let dstFolder := pyJoin destRoot (relpath e.directoryPath sourceDir)
    plan ++ (e.filePaths.filter (patternMatch patterns)).map (fun fname =>
      { src := pyJoin e.directoryPath fname
        dst := pyJoin dstFolder fname
        fsize := (fs.size (pyJoin e.directoryPath fname)).getD 0 })) []

/-- Distinguishable failure kinds of one `copy_one` call: the early-return
`"cancelled"` marker, the `"hash mismatch"` marker of a failed verification,
and `str(e)` of a raised exception. -/
inductive ErrKind
  | cancelled
  | hashMismatch
  | ioError (msg : String)
deriving DecidableEq, Repr

/-- Per-run oracles for the execution phase: whether `verify_hash` is set,
whether task `i`'s copy raises (and the exception text), and the digests
`chunked_file_hash` computes for source and destination after the copy. -/
structure CopyEnv where
  verify : Bool
  copyExn : Nat → Option String
  srcDigest : Nat → String
  dstDigest : Nat → String

/-- The failure (if any) task `i` produces once past the cancellation check:
an exception anywhere in the `try` block wins; otherwise a digest mismatch
when verification is on; otherwise success. -/
def copyOutcome (env : CopyEnv) (i : Nat) : Option ErrKind :=
  match env.copyExn i with
  | some e => some (ErrKind.ioError e)
  | none =>
    if env.verify && (env.srcDigest i != env.dstDigest i)
    then some ErrKind.hashMismatch
    else none

/-- The `(ok, …, err)` result of one `copy_one` future. -/
structure Outcome where
  ok : Bool
  err : Option ErrKind
deriving DecidableEq, Repr

/-- One `progress_update` payload (wall-clock speed omitted):
`(files_processed, basename(src), fsize, copied_size)`. -/
structure ProgressEvent where
  filesProcessed : Nat
  fileName : String
  fileSize : Nat
  copiedSize : Nat
deriving DecidableEq, Repr

/-- Program counter of one worker task. -/
inductive TaskPC
  | idle
  | ran
  | locked
  | doneOk
  | doneFail
  | doneCancelled
deriving DecidableEq, Repr

/-- Shared state of one execution phase: the `BackupWorker` counters, the
cancellation flag, the main loop's error count and break flag, each task's
program counter and pending snapshot, the consumed futures, the events in
emission order, and (ghost) the snapshots in lock order. -/
structure ExecState where
  cancelled : Bool
  files_copied : Nat
  copied_size : Nat
  errors : Nat
  mainBroke : Bool
  pc : Nat → TaskPC
  mySnap : Nat → Option ProgressEvent
  collected : List Nat
  events : List ProgressEvent
  snaps : List ProgressEvent

def initExec : ExecState :=
  ⟨false, 0, 0, 0, false, fun _ => TaskPC.idle, fun _ => none, [], [], []⟩

/-- Atomic schedule events of the execution phase. -/
inductive Ev
  | cancel
  | check (i : Nat)
  | lockSnap (i : Nat)
  | emitRet (i : Nat)
  | failRet (i : Nat)
  | collect (i : Nat)
deriving DecidableEq, Repr

/-- The future result of task `i`, available once the task is done. -/
def resultOf (env : CopyEnv) (st : ExecState) (i : Nat) : Option Outcome :=
  match st.pc i with
  | TaskPC.doneOk => some ⟨true, none⟩
  | TaskPC.doneFail => some ⟨false, copyOutcome env i⟩
  | TaskPC.doneCancelled => some ⟨false, some ErrKind.cancelled⟩
  | _ => none

/-- One atomic step.  `check i`: `copy_one` reads `self.cancelled` before
doing anything and returns the `"cancelled"` outcome without copying when it
is set.  `lockSnap i`: a successful, verified copy takes the lock,
increments both counters and snapshots them.  `emitRet i`: the signal is
emitted outside the lock and the future completes.  `failRet i`: a failing
copy completes its future.  `collect i`: the `as_completed` loop reads one
result, breaks if the flag is set, else counts an error for a falsy `ok`. -/
def step (plan : List CopyTask) (env : CopyEnv) (st : ExecState) (e : Ev) :
    ExecState :=
  match e with
  | Ev.cancel => { st with cancelled := true }
  | Ev.check i =>
    if i < plan.length ∧ st.pc i = TaskPC.idle then
      if st.cancelled then
        { st with pc := Function.update st.pc i TaskPC.doneCancelled }
      else
        { st with pc := Function.update st.pc i TaskPC.ran }
    else st
  | Ev.lockSnap i =>
    if st.pc i = TaskPC.ran ∧ copyOutcome env i = none then
      match plan[i]? with
      | some t =>
        let fc := st.files_copied + 1
        let cs := st.copied_size + t.fsize
        let ev : ProgressEvent := ⟨fc, basename t.src, t.fsize, cs⟩
        { st with files_copied := fc, copied_size := cs,
                  pc := Function.update st.pc i TaskPC.locked,
                  mySnap := Function.update st.mySnap i (some ev),
                  snaps := st.snaps ++ [ev] }
      | none => st
    else st
  | Ev.emitRet i =>
    if st.pc i = TaskPC.locked then
      match st.mySnap i with
      | some ev =>
        { st with pc := Function.update st.pc i TaskPC.doneOk,
                  events := st.events ++ [ev] }
      | none => st
    else st
  | Ev.failRet i =>
    if st.pc i = TaskPC.ran ∧ copyOutcome env i ≠ none then
      { st with pc := Function.update st.pc i TaskPC.doneFail }
    else st
  | Ev.collect i =>
    if ¬ st.mainBroke ∧ i ∉ st.collected then
      match resultOf env st i with
      | some r =>
        if st.cancelled then
          { st with mainBroke := true, collected := st.collected ++ [i] }
        else if r.ok then
          { st with collected := st.collected ++ [i] }
        else
          { st with errors := st.errors + 1, collected := st.collected ++ [i] }
      | none => st
    else st

/-- Run a schedule from a state. -/
def execSched (plan : List CopyTask) (env : CopyEnv) (sched : List Ev)
    (st : ExecState) : ExecState :=
  sched.foldl (step plan env) st

/-- The `finished` payload `(files_copied, success, message)`. -/
structure Terminal where
  filesCopied : Nat
  success : Bool
  message : String
deriving DecidableEq, Repr

/-- The completion report of `BackupWorker.run`: cancellation beats
everything; otherwise zero errors means success and a nonzero error count
is summarized, with `files_copied` preserved either way. -/
def terminal (st : ExecState) : Terminal :=
  if st.cancelled then ⟨st.files_copied, false, "Backup cancelled by user."⟩
  else if st.errors = 0 then
    ⟨st.files_copied, true, "Backup completed successfully."⟩
  else
    ⟨st.files_copied, false,
      "DONE. Files copied: " ++ toString st.files_copied
        ++ "; Errors: " ++ toString st.errors⟩

/-- `BackupWorker.run`: plan, abort on an empty plan before any dispatch,
else execute under a schedule and report. -/
def backupRun (fs : FS) (sourceDir destRoot : String) (patterns : List String)
    (env : CopyEnv) (sched : List Ev) : Terminal × List ProgressEvent :=
  let plan := buildPlan fs sourceDir destRoot patterns
  if plan.length = 0 then
    (⟨0, false, "No files found to backup in: " ++ sourceDir⟩, [])
  else
    let st := execSched plan env sched initExec
    (terminal st, st.events)

/-- Whether a task program counter contributes to `files_copied`. -/
def countsCopied : TaskPC → Bool
  | TaskPC.locked => true
  | TaskPC.doneOk => true
  | _ => false

/-- How many planned tasks have passed their locked increment. -/
def copiedCount (plan : List CopyTask) (pc : Nat → TaskPC) : Nat :=
  ((List.range plan.length).filter (fun i => countsCopied (pc i))).length

/-- Counting invariant: only planned tasks ever leave `idle`, and
`files_copied` equals the number of tasks past their locked increment. -/
def FCInv (plan : List CopyTask) (st : ExecState) : Prop :=
  (∀ i, st.pc i ≠ TaskPC.idle → i < plan.length) ∧
  st.files_copied = copiedCount plan st.pc

/-- Whether a task has completed its future. -/
def isDone : TaskPC → Bool
  | TaskPC.doneOk => true
  | TaskPC.doneFail => true
  | TaskPC.doneCancelled => true
  | _ => false

/-- Whether the collected future of task `i` counted as an error. -/
def resNotOk (env : CopyEnv) (st : ExecState) (i : Nat) : Bool :=
  match resultOf env st i with
  | some r => !r.ok
  | none => false

/-- Invariant of a never-cancelled execution: the flag never rises, no task
ever observes a cancellation, locked tasks really had successful copies,
collected futures are complete, and the error counter equals the number of
collected failing futures. -/
def NCInv (env : CopyEnv) (st : ExecState) : Prop :=
  st.cancelled = false ∧
  (∀ i, st.pc i ≠ TaskPC.doneCancelled) ∧
  (∀ i, (st.pc i = TaskPC.locked ∨ st.pc i = TaskPC.doneOk) →
      copyOutcome env i = none) ∧
  (∀ i ∈ st.collected, isDone (st.pc i) = true) ∧
  st.errors = (st.collected.filter (resNotOk env st)).length

/-- Pointwise counter comparison of two progress events. -/
def evLeB (a b : ProgressEvent) : Bool :=
  decide (a.filesProcessed ≤ b.filesProcessed)
    && decide (a.copiedSize ≤ b.copiedSize)

/-- Whether a whole event sequence is monotone: no event reports counters
smaller than any earlier event's. -/
def pairwiseLeB : List ProgressEvent → Bool
  | [] => true
  | a :: rest => rest.all (fun b => evLeB a b) && pairwiseLeB rest

/-- Snapshot invariant: the snapshots, in the order the locked increments
occur, are monotone and bounded by the live counters, and every pending or
emitted event carries one of these snapshots. -/
def SnapInv (st : ExecState) : Prop :=
  pairwiseLeB st.snaps = true ∧
  (∀ s ∈ st.snaps,
    s.filesProcessed ≤ st.files_copied ∧ s.copiedSize ≤ st.copied_size) ∧
  (∀ i e, st.mySnap i = some e → e ∈ st.snaps) ∧
  (∀ e ∈ st.events, e ∈ st.snaps)

def planX : List CopyTask :=
  [⟨"/s/a.txt", "/d/a.txt", 100⟩, ⟨"/s/b.txt", "/d/b.txt", 100⟩]

def envX : CopyEnv := ⟨true, fun _ => none, fun _ => "h", fun _ => "h"⟩

def schedX : List Ev :=
  [Ev.check 0, Ev.check 1, Ev.lockSnap 0, Ev.lockSnap 1,
   Ev.emitRet 1, Ev.emitRet 0, Ev.collect 0, Ev.collect 1]

def fs3 : FS where
  univ := {"/src"}
  entries := fun p => if p = "/src" then ["a.txt", "b.txt", "c.txt"] else []
  kind := fun _ => EntryKind.file
  ok := fun p => p = "/src"
  realpath := fun _ => "/src"
  size := fun p => if p = "/src" then none else some 100
  hashOf := fun _ => some "h"
  isDir := fun p => p = "/src"
  canChmod := fun _ => true
  real_mem := by intro p; simp

def planC1 : List CopyTask :=
  [⟨"/src/a.txt", "/src/a.txt", 100⟩, ⟨"/src/b.txt", "/src/b.txt", 100⟩,
   ⟨"/src/c.txt", "/src/c.txt", 100⟩]

def envC1 : CopyEnv :=
  ⟨true,
   fun i => match planC1[i]? with
     | some t => if t.src = t.dst then some "SameFileError" else none
     | none => none,
   fun _ => "h", fun _ => "h"⟩

def schedC1 : List Ev :=
  [Ev.check 0, Ev.lockSnap 0, Ev.emitRet 0, Ev.failRet 0, Ev.collect 0,
   Ev.check 1, Ev.lockSnap 1, Ev.emitRet 1, Ev.failRet 1, Ev.collect 1,
   Ev.check 2, Ev.lockSnap 2, Ev.emitRet 2, Ev.failRet 2, Ev.collect 2]

def fsW : FS where
  univ := {"/r", "/r/d"}
  entries := fun p => if p = "/r" then ["d", "s", "f"] else []
  kind := fun q =>
    if q = "/r/d" then EntryKind.realDir
    else if q = "/r/s" then EntryKind.symlink
    else EntryKind.file
  ok := fun p => p = "/r" || p = "/r/d"
  realpath := fun p => if p = "/r/d" then "/r/d" else "/r"
  size := fun _ => some 1
  hashOf := fun _ => some "h"
  isDir := fun p => p = "/r" || p = "/r/d"
  canChmod := fun _ => true
  real_mem := by
    intro p
    by_cases h : p = "/r/d" <;> simp [h]

def fsD : FS where
  univ := {"/d"}
  entries := fun p => if p = "/d" then ["a.txt", "b.txt", "c.txt"] else []
  kind := fun _ => EntryKind.file
  ok := fun p => p = "/d"
  realpath := fun _ => "/d"
  size := fun _ => some 10
  hashOf := fun q =>
    if q = "/d/a.txt" then some "h1"
    else if q = "/d/b.txt" then some "h1"
    else some "h2"
  isDir := fun p => p = "/d"
  canChmod := fun _ => true
  real_mem := by intro p; simp

def plan4 : List CopyTask := [⟨"/s/x.txt", "/d/x.txt", 10⟩]

def env4 : CopyEnv := ⟨true, fun _ => none, fun _ => "a", fun _ => "b"⟩

def sched4 : List Ev :=
  [Ev.check 0, Ev.lockSnap 0, Ev.emitRet 0, Ev.failRet 0, Ev.collect 0]

def stC5 : ExecState := { initExec with cancelled := true }

def s1C5 : List Ev := [Ev.check 0, Ev.lockSnap 0, Ev.emitRet 0, Ev.collect 0]

def fsE : FS where
  univ := {"/e"}
  entries := fun _ => []
  kind := fun _ => EntryKind.file
  ok := fun p => p = "/e"
  realpath := fun _ => "/e"
  size := fun _ => none
  hashOf := fun _ => none
  isDir := fun p => p = "/e"
  canChmod := fun _ => true
  real_mem := by intro p; simp

/-- Core invariant of the visited-set: the canonical paths of the yielded
entries are pairwise distinct and never in the starting visited-set. -/
theorem fastScanAux_nodup (fs : FS) (stack : List String) (visited : Finset String) :
    ((fastScanAux fs stack visited).map (fun e => fs.realpath e.directoryPath)).Nodup ∧
    ∀ e ∈ fastScanAux fs stack visited, fs.realpath e.directoryPath ∉ visited := by
  induction stack, visited using fastScanAux.induct fs with
  | case1 visited =>
    unfold fastScanAux
    simp
  | case2 visited p rest real hmem ih =>
    unfold fastScanAux
    rw [dif_pos hmem]
    exact ih
  | case3 visited p rest real hmem hok ds ih =>
    unfold fastScanAux
    rw [dif_neg hmem, if_pos hok]
    constructor
    · simp only [List.map_cons, List.nodup_cons]
      refine ⟨?_, ih.1⟩
      intro hin
      rcases List.mem_map.mp hin with ⟨e, he, heq⟩
      exact ih.2 e he (heq ▸ Finset.mem_insert_self _ _)
    · intro e he
      rcases List.mem_cons.mp he with rfl | he'
      · exact hmem
      · exact fun hv => ih.2 e he' (Finset.mem_insert_of_mem hv)
  | case4 visited p rest real hmem hok ih =>
    unfold fastScanAux
    rw [dif_neg hmem, if_neg hok]
    refine ⟨ih.1, fun e he hv => ih.2 e he (Finset.mem_insert_of_mem hv)⟩

/-- Every yielded entry records exactly the scan-loop classification of its
directory's listing, and its directory path satisfies any property that
holds of the stack seeds and is preserved by the subdirectory push. -/
theorem fastScanAux_shape (fs : FS) (P : String → Prop)
    (hP : ∀ p q, q ∈ fs.scanDirs p → P q) (stack : List String) (visited : Finset String) :
    (∀ q ∈ stack, P q) →
    ∀ e ∈ fastScanAux fs stack visited,
      P e.directoryPath ∧
      e.subdirectoryPaths = fs.scanDirs e.directoryPath ∧
      e.filePaths = fs.scanFiles e.directoryPath := by
  induction stack, visited using fastScanAux.induct fs with
  | case1 visited =>
    intro _ e he
    unfold fastScanAux at he
    simp at he
  | case2 visited p rest real hmem ih =>
    intro hstack e he
    unfold fastScanAux at he
    rw [dif_pos hmem] at he
    exact ih (fun q hq => hstack q (List.mem_cons_of_mem p hq)) e he
  | case3 visited p rest real hmem hok ds ih =>
    intro hstack e he
    unfold fastScanAux at he
    rw [dif_neg hmem, if_pos hok] at he
    rcases List.mem_cons.mp he with rfl | he'
    · exact ⟨hstack p (List.mem_cons_self p rest), rfl, rfl⟩
    · refine ih ?_ e he'
      intro q hq
      rcases List.mem_append.mp hq with hq' | hq'
      · exact hP p q (List.mem_reverse.mp hq')
      · exact hstack q (List.mem_cons_of_mem p hq')
  | case4 visited p rest real hmem hok ih =>
    intro hstack e he
    unfold fastScanAux at he
    rw [dif_neg hmem, if_neg hok] at he
    exact ih (fun q hq => hstack q (List.mem_cons_of_mem p hq)) e he

/-- **C2.** For every directory tree, including trees containing a symlink
cycle, `walk` (`fast_scan`) terminates, produces a finite sequence of
`TraversalEntry` triples, and yields each canonical (symlink-resolved) real
directory path at most once per traversal.  Termination and finiteness are
witnessed by `fastScan` being a total Lean function into `List`; this
theorem states the at-most-once part: the canonical paths of the yielded
entries are pairwise distinct. -/
theorem fastScan_visits_each_real_dir_once (fs : FS) (root : String) :
    ((fastScan fs root).map (fun e => fs.realpath e.directoryPath)).Nodup :=
  (fastScanAux_nodup fs [root] ∅).1

/-- **C9.** In every `TraversalEntry` produced by `fast_scan`,
`subdirectoryPaths` contains only real (non-symlink) directories; any entry
that is a symlink — including a symlink to a directory — is classified into
`filePaths`; and the traversal never descends through a symlink: every
yielded directory other than the root is itself a real directory. -/
theorem fastScan_no_symlink_descent (fs : FS) (root : String)
    (e : TraversalEntry) (he : e ∈ fastScan fs root) :
    (∀ q ∈ e.subdirectoryPaths, fs.kind q = EntryKind.realDir) ∧
    (∀ q ∈ fs.listing e.directoryPath,
       fs.kind q = EntryKind.symlink → q ∈ e.filePaths) ∧
    (e.directoryPath = root ∨ fs.kind e.directoryPath = EntryKind.realDir) := by
  have hP : ∀ p q, q ∈ fs.scanDirs p →
      (q = root ∨ fs.kind q = EntryKind.realDir) := by
    intro p q hq
    right
    have := (List.mem_filter.mp hq).2
    exact beq_iff_eq.mp this
  have h := fastScanAux_shape fs (fun q => q = root ∨ fs.kind q = EntryKind.realDir)
    hP [root] ∅ (by simp) e he
  refine ⟨?_, ?_, h.1⟩
  · intro q hq
    rw [h.2.1] at hq
    have := (List.mem_filter.mp hq).2
    exact beq_iff_eq.mp this
  · intro q hq hk
    rw [h.2.2]
    refine List.mem_filter.mpr ⟨hq, ?_⟩
    simp [hk]

/-- Pointwise characterization of one permission pass: a path that occurs in
the item list and can be chmodded ends at exactly the policy mode; every
other path keeps its previous mode. -/
theorem permissionRun_apply (fs : FS) (items : List String) (modes : String → Nat)
    (p : String) :
    permissionRun fs items modes p =
      if p ∈ items ∧ fs.canChmod p = true
      then (if fs.isDir p then 0o777 else 0o666) else modes p := by
  induction items generalizing modes with
  | nil => simp [permissionRun]
  | cons q rest ih =>
    show permissionRun fs rest (setPermsPosix fs modes q) p = _
    rw [ih]
    by_cases hrest : p ∈ rest ∧ fs.canChmod p = true
    · have hcons : p ∈ q :: rest ∧ fs.canChmod p = true :=
        ⟨List.mem_cons_of_mem q hrest.1, hrest.2⟩
      rw [if_pos hrest, if_pos hcons]
    · rw [if_neg hrest]
      by_cases hpq : p = q
      · subst hpq
        by_cases hc : fs.canChmod p = true
        · simp [setPermsPosix, hc, Function.update]
        · have hfalse : ¬(p ∈ p :: rest ∧ fs.canChmod p = true) :=
            fun hcon => hc hcon.2
          rw [if_neg hfalse]
          simp [setPermsPosix, hc]
      · have hside : (setPermsPosix fs modes q) p = modes p := by
          by_cases hc : fs.canChmod q = true
          · simp [setPermsPosix, hc, Function.update, hpq]
          · simp [setPermsPosix, hc]
        rw [hside, if_neg]
        intro hcon
        rcases List.mem_cons.mp hcon.1 with h' | h'
        · exact hpq h'
        · exact hrest ⟨h', hcon.2⟩

/-- **C7.** `normalizePermissions` is idempotent in its effect on mode bits:
for every tree and the fixed policy, running the POSIX pass twice leaves
every path with exactly the mode bits of running it once; and those final
bits are `0o666` for files and `0o777` for directories on every enumerated
item whose `chmod` succeeds. -/
theorem normalizePermissions_idempotent (fs : FS) (roots : List String)
    (modes : String → Nat) :
    permissionRun fs (allItems fs roots) (permissionRun fs (allItems fs roots) modes)
      = permissionRun fs (allItems fs roots) modes ∧
    ∀ p ∈ allItems fs roots, fs.canChmod p = true →
      permissionRun fs (allItems fs roots) modes p
        = (if fs.isDir p then 0o777 else 0o666) := by
  constructor
  · funext p
    rw [permissionRun_apply, permissionRun_apply]
    by_cases h : p ∈ allItems fs roots ∧ fs.canChmod p = true
    · simp only [h, and_self, if_true]
    · simp only [h, if_false]
  · intro p hp hc
    rw [permissionRun_apply, if_pos ⟨hp, hc⟩]

theorem alGet_alSet_self {β : Type} (m : List (String × β)) (k : String) (v : β) :
    alGet (alSet m k v) k = some v := by
  induction m with
  | nil => simp [alSet, alGet]
  | cons kv rest ih =>
    obtain ⟨k', v'⟩ := kv
    by_cases h : k' = k
    · simp [alSet, alGet, h]
    · simp [alSet, alGet, h, ih]

theorem alGet_alSet_ne {β : Type} (m : List (String × β)) (k k' : String) (v : β)
    (h : k' ≠ k) : alGet (alSet m k v) k' = alGet m k' := by
  have hk : ¬ k = k' := fun hc => h hc.symm
  induction m with
  | nil =>
    simp only [alSet, alGet]
    rw [if_neg hk]
  | cons kv rest ih =>
    obtain ⟨k0, v0⟩ := kv
    by_cases h0 : k0 = k
    · subst h0
      simp only [alSet, if_pos rfl, alGet]
      rw [if_neg hk, if_neg hk]
    · simp only [alSet, if_neg h0, alGet]
      by_cases h1 : k0 = k'
      · rw [if_pos h1, if_pos h1]
      · rw [if_neg h1, if_neg h1]
        exact ih

theorem alKeys_alSet {β : Type} (m : List (String × β)) (k : String) (v : β) :
    alKeys (alSet m k v) = if k ∈ alKeys m then alKeys m else alKeys m ++ [k] := by
  induction m with
  | nil => simp [alSet, alKeys]
  | cons kv rest ih =>
    obtain ⟨k0, v0⟩ := kv
    by_cases h0 : k0 = k
    · subst h0
      simp [alSet, alKeys]
    · have hrw : alSet ((k0, v0) :: rest) k v = (k0, v0) :: alSet rest k v := by
        simp [alSet, h0]
      rw [hrw]
      show k0 :: alKeys (alSet rest k v) = _
      rw [ih]
      by_cases h1 : k ∈ alKeys rest
      · rw [if_pos h1,
          if_pos (show k ∈ alKeys ((k0, v0) :: rest) from List.mem_cons_of_mem _ h1)]
        rfl
      · have hmem : ¬ k ∈ alKeys ((k0, v0) :: rest) := by
          intro hc
          rcases List.mem_cons.mp hc with hc' | hc'
          · exact h0 hc'.symm
          · exact h1 hc'
        rw [if_neg h1, if_neg hmem]
        rfl

theorem alKeys_nodup_alSet {β : Type} (m : List (String × β)) (k : String) (v : β)
    (h : (alKeys m).Nodup) : (alKeys (alSet m k v)).Nodup := by
  rw [alKeys_alSet]
  by_cases hk : k ∈ alKeys m
  · rw [if_pos hk]; exact h
  · rw [if_neg hk]
    rw [List.nodup_append]
    refine ⟨h, List.nodup_singleton k, ?_⟩
    intro a ha hb
    rw [List.mem_singleton] at hb
    exact hk (hb ▸ ha)

theorem alGet_of_mem {β : Type} (m : List (String × β)) (k : String) (v : β)
    (hnd : (alKeys m).Nodup) (h : (k, v) ∈ m) : alGet m k = some v := by
  induction m with
  | nil => simp at h
  | cons kv rest ih =>
    obtain ⟨k0, v0⟩ := kv
    have hnd' := List.nodup_cons.mp (show (k0 :: alKeys rest).Nodup from hnd)
    rcases List.mem_cons.mp h with h' | h'
    · cases h'
      simp [alGet]
    · have hk0 : k0 ≠ k := by
        intro hc
        subst hc
        have hin : k0 ∈ alKeys rest := by
          simp only [alKeys, List.mem_map]
          exact ⟨(k0, v), h', rfl⟩
        exact hnd'.1 hin
      simp only [alGet, if_neg hk0]
      exact ih hnd'.2 h'

theorem dupFold_append (L1 L2 : List (String × String)) (st : DupState) :
    dupFold (L1 ++ L2) st = dupFold L2 (dupFold L1 st) := by
  simp [dupFold, List.foldl_append]

theorem foldl_processOne (fs : FS) (minSize : Nat) (exts : List String)
    (dirpath : String) (l : List String) (st : DupState) :
    l.foldl (processOne fs minSize exts dirpath) st
      = dupFold (l.filterMap (candOf fs minSize exts dirpath)) st := by
  induction l generalizing st with
  | nil => rfl
  | cons a l ih =>
    simp only [List.foldl_cons, List.filterMap_cons]
    cases hc : candOf fs minSize exts dirpath a with
    | none =>
      rw [show processOne fs minSize exts dirpath st a = st from by
        simp [processOne, hc]]
      exact ih st
    | some pr =>
      obtain ⟨p, h⟩ := pr
      rw [show processOne fs minSize exts dirpath st a = dupStep st p h from by
        simp [processOne, hc]]
      show _ = dupFold ((p, h) :: _) st
      simp only [dupFold, List.foldl_cons]
      exact ih _

theorem foldl_gather_acc {α β : Type} (es : List α) (f : α → List β) (acc : List β) :
    es.foldl (fun acc e => acc ++ f e) acc
      = acc ++ es.foldl (fun acc e => acc ++ f e) [] := by
  induction es generalizing acc with
  | nil => simp
  | cons e es ih =>
    simp only [List.foldl_cons, List.nil_append]
    rw [ih (acc ++ f e), ih (f e), List.append_assoc]

/-- `find_duplicates` is the filter of the `dupStep` fold over the hashed
candidates in traversal order. -/
theorem find_duplicates_eq_dupFold (fs : FS) (dir : String) (minSize : Nat)
    (exts : List String) :
    find_duplicates fs dir minSize exts
      = (dupFold (dupCandidates fs dir minSize exts)
          ⟨[], []⟩).dups.filter (fun kv => kv.2.length > 1) := by
  suffices h : ∀ (es : List TraversalEntry) (st : DupState),
      es.foldl (fun st e =>
          e.filePaths.foldl (processOne fs minSize exts e.directoryPath) st) st
        = dupFold (es.foldl (fun acc e =>
            acc ++ e.filePaths.filterMap (candOf fs minSize exts e.directoryPath)) []) st by
    unfold find_duplicates dupCandidates
    rw [h]
  intro es
  induction es with
  | nil => intro st; rfl
  | cons e es ih =>
    intro st
    simp only [List.foldl_cons, List.nil_append]
    rw [ih, foldl_processOne]
    conv_rhs => rw [foldl_gather_acc]
    rw [dupFold_append]

theorem groupOcc_append (L : List (String × String)) (x : String × String)
    (k : String) :
    groupOcc (L ++ [x]) k = groupOcc L k ++ (if x.2 = k then [x.1] else []) := by
  simp only [groupOcc, List.filter_append, List.map_append]
  congr 1
  by_cases h : x.2 = k
  · simp [h]
  · simp [h]

/-- One `dupStep` moves the dict contents at the stepped digest from
`dupSpec occ` to `dupSpec (occ ++ [p])`. -/
theorem dupStep_spec (st : DupState) (p hx : String) (occ : List String)
    (hh : alGet st.hashes hx = (dupSpec occ).1)
    (hd : alGet st.dups hx = (dupSpec occ).2) :
    alGet (dupStep st p hx).hashes hx = (dupSpec (occ ++ [p])).1 ∧
    alGet (dupStep st p hx).dups hx = (dupSpec (occ ++ [p])).2 := by
  cases occ with
  | nil =>
    simp only [dupSpec] at hh hd
    unfold dupStep
    rw [hh]
    exact ⟨alGet_alSet_self _ _ _, hd⟩
  | cons p0 t =>
    cases t with
    | nil =>
      simp only [dupSpec] at hh hd
      unfold dupStep
      rw [hh]
      simp only [hd, Option.getD_none, List.nil_append, List.singleton_append,
        dupSpec]
      refine ⟨hh, ?_⟩
      rw [alGet_alSet_self]
      by_cases hpp : p0 = p
      · rw [if_pos (List.mem_singleton.mpr hpp), if_pos hpp]
      · rw [if_neg (fun hc => hpp (List.mem_singleton.mp hc)), if_neg hpp]
    | cons p1 rest =>
      simp only [dupSpec] at hh hd
      unfold dupStep
      rw [hh]
      simp only [hd, Option.getD_some, List.cons_append, dupSpec]
      refine ⟨hh, ?_⟩
      have hmem : p0 ∈ (if p0 = p1 then p1 :: rest else p1 :: p0 :: rest) ++ [p] := by
        apply List.mem_append_left
        by_cases hpp : p0 = p1
        · rw [if_pos hpp]
          exact hpp ▸ List.mem_cons_self _ _
        · rw [if_neg hpp]
          exact List.mem_cons_of_mem _ (List.mem_cons_self _ _)
      rw [if_pos hmem, alGet_alSet_self]
      by_cases hpp : p0 = p1
      · rw [if_pos hpp, if_pos hpp]
        rfl
      · rw [if_neg hpp, if_neg hpp]
        rfl

/-- `dupStep` leaves both dicts unchanged at every other digest. -/
theorem dupStep_other (st : DupState) (p hx k : String) (hk : k ≠ hx) :
    alGet (dupStep st p hx).hashes k = alGet st.hashes k ∧
    alGet (dupStep st p hx).dups k = alGet st.dups k := by
  unfold dupStep
  cases halg : alGet st.hashes hx
  · exact ⟨alGet_alSet_ne _ _ _ _ hk, rfl⟩
  · exact ⟨rfl, alGet_alSet_ne _ _ _ _ hk⟩

/-- `dupStep` preserves distinctness of the dict keys. -/
theorem dupStep_nodup (st : DupState) (p hx : String)
    (hh : (alKeys st.hashes).Nodup) (hd : (alKeys st.dups).Nodup) :
    (alKeys (dupStep st p hx).hashes).Nodup ∧
    (alKeys (dupStep st p hx).dups).Nodup := by
  unfold dupStep
  cases halg : alGet st.hashes hx
  · exact ⟨alKeys_nodup_alSet _ _ _ hh, hd⟩
  · exact ⟨hh, alKeys_nodup_alSet _ _ _ hd⟩

/-- Invariant of the duplicate-scan fold: both dicts have distinct keys,
and at every digest their contents are exactly `dupSpec` of the digest's
ordered occurrence list. -/
theorem dupFold_char (L : List (String × String)) :
    (alKeys (dupFold L ⟨[], []⟩).hashes).Nodup ∧
    (alKeys (dupFold L ⟨[], []⟩).dups).Nodup ∧
    ∀ k, alGet (dupFold L ⟨[], []⟩).hashes k = (dupSpec (groupOcc L k)).1 ∧
         alGet (dupFold L ⟨[], []⟩).dups k = (dupSpec (groupOcc L k)).2 := by
  induction L using List.reverseRecOn with
  | nil => exact ⟨List.nodup_nil, List.nodup_nil, fun k => ⟨rfl, rfl⟩⟩
  | append_singleton L x ih =>
    obtain ⟨hnh, hnd, hchar⟩ := ih
    rw [dupFold_append]
    obtain ⟨p, hx⟩ := x
    have hstep : dupFold [(p, hx)] (dupFold L ⟨[], []⟩)
        = dupStep (dupFold L ⟨[], []⟩) p hx := rfl
    rw [hstep]
    obtain ⟨hnod1, hnod2⟩ := dupStep_nodup (dupFold L ⟨[], []⟩) p hx hnh hnd
    refine ⟨hnod1, hnod2, ?_⟩
    intro k
    rw [groupOcc_append]
    by_cases hk : hx = k
    · subst hk
      simp only [if_pos rfl]
      exact dupStep_spec _ p hx (groupOcc L hx) (hchar hx).1 (hchar hx).2
    · rw [if_neg hk, List.append_nil]
      have ho := dupStep_other (dupFold L ⟨[], []⟩) p hx k (fun hc => hk hc.symm)
      exact ⟨ho.1.trans (hchar k).1, ho.2.trans (hchar k).2⟩

/-- A successful `candOf` pairs the computed filepath with its digest. -/
theorem candOf_hash (fs : FS) (minSize : Nat) (exts : List String)
    (d f p h : String) (hc : candOf fs minSize exts d f = some (p, h)) :
    fs.hashOf p = some h := by
  have inner : ∀ fp : String,
      (match fs.size fp with
       | none => none
       | some sz =>
         if sz < minSize then none
         else match fs.hashOf fp with
              | none => none
              | some h0 => some (fp, h0)) = some (p, h) →
      fs.hashOf p = some h := by
    intro fp hc'
    split at hc'
    · exact absurd hc' (by simp)
    · split at hc'
      · exact absurd hc' (by simp)
      · split at hc'
        · exact absurd hc' (by simp)
        · rename_i hh
          have hpair := Option.some.inj hc'
          injection hpair with h1 h2
          exact h2 ▸ h1 ▸ hh
  unfold candOf at hc
  split at hc
  · exact absurd hc (by simp)
  · split at hc
    · exact inner _ hc
    · exact inner _ hc

/-- Membership in an accumulate-append fold comes from one of the folded
elements. -/
theorem mem_foldl_gather {α β : Type} (es : List α) (f : α → List β) (x : β)
    (hx : x ∈ es.foldl (fun acc e => acc ++ f e) []) : ∃ e ∈ es, x ∈ f e := by
  induction es with
  | nil => simp [List.foldl_nil] at hx
  | cons e es ih =>
    rw [List.foldl_cons, List.nil_append, foldl_gather_acc] at hx
    rcases List.mem_append.mp hx with hx' | hx'
    · exact ⟨e, List.mem_cons_self e es, hx'⟩
    · obtain ⟨e', he', hxe⟩ := ih hx'
      exact ⟨e', List.mem_cons_of_mem e he', hxe⟩

/-- Every hashed candidate pair records the digest of its path. -/
theorem dupCandidates_hash (fs : FS) (dir : String) (minSize : Nat)
    (exts : List String) (p k : String)
    (hp : (p, k) ∈ dupCandidates fs dir minSize exts) :
    fs.hashOf p = some k := by
  obtain ⟨e, _, hx⟩ := mem_foldl_gather _ _ _ hp
  obtain ⟨f, _, hcand⟩ := List.mem_filterMap.mp hx
  exact candOf_hash _ _ _ _ _ _ _ hcand

/-- **C3.** Every group returned by `find_duplicates` has at least 2 member
paths, and every path in a group has content digest (`chunked_file_hash`)
equal to the group's key; singleton groups are never returned. -/
theorem find_duplicates_groups (fs : FS) (dir : String) (minSize : Nat)
    (exts : List String) (k : String) (v : List String)
    (h : (k, v) ∈ find_duplicates fs dir minSize exts) :
    2 ≤ v.length ∧ ∀ p ∈ v, fs.hashOf p = some k := by
  rw [find_duplicates_eq_dupFold] at h
  obtain ⟨hmem, hlen⟩ := List.mem_filter.mp h
  obtain ⟨hnh, hnd, hchar⟩ := dupFold_char (dupCandidates fs dir minSize exts)
  have hget : alGet (dupFold (dupCandidates fs dir minSize exts) ⟨[], []⟩).dups k
      = some v := alGet_of_mem _ _ _ hnd hmem
  have hd := (hchar k).2
  rw [hget] at hd
  have hvocc : ∀ p ∈ v, p ∈ groupOcc (dupCandidates fs dir minSize exts) k := by
    cases hocc : groupOcc (dupCandidates fs dir minSize exts) k with
    | nil =>
      rw [hocc] at hd
      simp [dupSpec] at hd
    | cons p0 t =>
      cases t with
      | nil =>
        rw [hocc] at hd
        simp [dupSpec] at hd
      | cons p1 rest =>
        rw [hocc] at hd
        simp only [dupSpec] at hd
        have hv := Option.some.inj hd
        intro p hp
        rw [hv] at hp
        by_cases hpp : p0 = p1
        · rw [if_pos hpp] at hp
          exact List.mem_cons_of_mem p0 hp
        · rw [if_neg hpp] at hp
          rcases List.mem_cons.mp hp with rfl | hp'
          · exact List.mem_cons_of_mem p0 (List.mem_cons_self _ _)
          · rcases List.mem_cons.mp hp' with rfl | hp''
            · exact List.mem_cons_self _ _
            · exact List.mem_cons_of_mem _ (List.mem_cons_of_mem _ hp'')
  constructor
  · have : 1 < v.length := by simpa using hlen
    omega
  · intro p hp
    have hpocc := hvocc p hp
    have hpair : (p, k) ∈ dupCandidates fs dir minSize exts := by
      simp only [groupOcc, List.mem_map, List.mem_filter] at hpocc
      obtain ⟨⟨p', k'⟩, ⟨hmemL, hbeq⟩, hfst⟩ := hpocc
      have hk' : k' = k := beq_iff_eq.mp hbeq
      subst hk'
      have hp' : p' = p := hfst
      subst hp'
      exact hmemL
    exact dupCandidates_hash _ _ _ _ _ _ hpair

/-- **C10.** For every duplicate group, when the first two traversal
occurrences of its digest are distinct paths, the group list starts with
the second-encountered path at index 0 and the first-encountered path at
index 1 — so the first-encountered path is not the group's first element. -/
theorem find_duplicates_second_seen_first (fs : FS) (dir : String)
    (minSize : Nat) (exts : List String) (k : String) (v : List String)
    (p0 p1 : String)
    (h : (k, v) ∈ find_duplicates fs dir minSize exts)
    (h0 : (groupOcc (dupCandidates fs dir minSize exts) k).head? = some p0)
    (h1 : (groupOcc (dupCandidates fs dir minSize exts) k)[1]? = some p1)
    (hne : p0 ≠ p1) :
    v.head? = some p1 ∧ v[1]? = some p0 ∧ v.head? ≠ some p0 := by
  rw [find_duplicates_eq_dupFold] at h
  obtain ⟨hmem, hlen⟩ := List.mem_filter.mp h
  obtain ⟨hnh, hnd, hchar⟩ := dupFold_char (dupCandidates fs dir minSize exts)
  have hget : alGet (dupFold (dupCandidates fs dir minSize exts) ⟨[], []⟩).dups k
      = some v := alGet_of_mem _ _ _ hnd hmem
  have hd := (hchar k).2
  rw [hget] at hd
  cases hocc : groupOcc (dupCandidates fs dir minSize exts) k with
  | nil =>
    rw [hocc] at h0
    simp at h0
  | cons q0 t =>
    cases t with
    | nil =>
      rw [hocc] at h1
      simp at h1
    | cons q1 rest =>
      rw [hocc] at hd h0 h1
      have hq0 : q0 = p0 := by simpa using h0
      have hq1 : q1 = p1 := by simpa using h1
      subst hq0
      subst hq1
      simp only [dupSpec] at hd
      have hv := Option.some.inj hd
      rw [if_neg hne] at hv
      rw [hv]
      refine ⟨rfl, by simp, ?_⟩
      intro hc
      exact hne ((Option.some.inj hc).symm ▸ rfl)

theorem step_cancelled_mono (plan : List CopyTask) (env : CopyEnv)
    (st : ExecState) (e : Ev) (h : st.cancelled = true) :
    (step plan env st e).cancelled = true := by
  cases e <;> simp only [step] <;> (repeat' split) <;> simp [h]

theorem exec_cancelled_mono (plan : List CopyTask) (env : CopyEnv)
    (sched : List Ev) (st : ExecState) (h : st.cancelled = true) :
    (execSched plan env sched st).cancelled = true := by
  induction sched generalizing st with
  | nil => exact h
  | cons e es ih => exact ih _ (step_cancelled_mono plan env st e h)

theorem step_files_mono (plan : List CopyTask) (env : CopyEnv)
    (st : ExecState) (e : Ev) :
    st.files_copied ≤ (step plan env st e).files_copied := by
  cases e <;> simp only [step] <;> (repeat' split) <;> simp

theorem exec_files_mono (plan : List CopyTask) (env : CopyEnv)
    (sched : List Ev) (st : ExecState) :
    st.files_copied ≤ (execSched plan env sched st).files_copied := by
  induction sched generalizing st with
  | nil => exact Nat.le_refl _
  | cons e es ih =>
    exact Nat.le_trans (step_files_mono plan env st e) (ih (step plan env st e))

theorem copiedCount_le (plan : List CopyTask) (pc : Nat → TaskPC) :
    copiedCount plan pc ≤ plan.length := by
  calc ((List.range plan.length).filter (fun i => countsCopied (pc i))).length
      ≤ (List.range plan.length).length := List.length_filter_le _ _
    _ = plan.length := List.length_range _

theorem copiedCount_update_eq (plan : List CopyTask) (pc : Nat → TaskPC)
    (i : Nat) (v : TaskPC) (hv : countsCopied v = countsCopied (pc i)) :
    copiedCount plan (Function.update pc i v) = copiedCount plan pc := by
  unfold copiedCount
  congr 1
  apply List.filter_congr
  intro j hj
  by_cases hji : j = i
  · subst hji
    rw [Function.update_same, hv]
  · rw [Function.update_noteq hji]

theorem length_filter_update_true (l : List Nat) (hl : l.Nodup) (i : Nat)
    (hi : i ∈ l) (f g : Nat → Bool) (hfg : ∀ j, j ≠ i → g j = f j)
    (hf : f i = false) (hg : g i = true) :
    (l.filter g).length = (l.filter f).length + 1 := by
  induction l with
  | nil => cases hi
  | cons a l ih =>
    have hnd := List.nodup_cons.mp hl
    rcases List.mem_cons.mp hi with rfl | hi'
    · have hfl : l.filter g = l.filter f :=
        List.filter_congr (fun j hj => hfg j (fun hc => hnd.1 (hc ▸ hj)))
      rw [List.filter_cons, List.filter_cons, hf, hg]
      simp [hfl]
    · have hai : a ≠ i := fun hc => hnd.1 (hc ▸ hi')
      rw [List.filter_cons, List.filter_cons, hfg a hai]
      by_cases hfa : f a = true
      · simp only [hfa, if_true]
        simp [ih hnd.2 hi']
      · simp only [hfa, if_false]
        exact ih hnd.2 hi'

theorem copiedCount_update_incr (plan : List CopyTask) (pc : Nat → TaskPC)
    (i : Nat) (v : TaskPC) (hi : i < plan.length)
    (hold : countsCopied (pc i) = false) (hnew : countsCopied v = true) :
    copiedCount plan (Function.update pc i v) = copiedCount plan pc + 1 := by
  unfold copiedCount
  apply length_filter_update_true _ (List.nodup_range _) i (List.mem_range.mpr hi)
  · intro j hji
    rw [Function.update_noteq hji]
  · exact hold
  · rw [Function.update_same]
    exact hnew

theorem step_FCInv (plan : List CopyTask) (env : CopyEnv) (st : ExecState)
    (e : Ev) (h : FCInv plan st) : FCInv plan (step plan env st e) := by
  obtain ⟨hbound, hcount⟩ := h
  have hupd_bound : ∀ (i : Nat) (v : TaskPC), i < plan.length →
      ∀ j, Function.update st.pc i v j ≠ TaskPC.idle → j < plan.length := by
    intro i v hi j hj
    by_cases hji : j = i
    · exact hji ▸ hi
    · rw [Function.update_noteq hji] at hj
      exact hbound j hj
  cases e with
  | cancel => exact ⟨hbound, hcount⟩
  | check i =>
    simp only [step]
    split
    · rename_i hg
      split
      · exact ⟨hupd_bound i _ hg.1,
          by rw [show ({ st with pc := Function.update st.pc i TaskPC.doneCancelled } :
              ExecState).files_copied = st.files_copied from rfl, hcount,
            copiedCount_update_eq plan st.pc i _ (by rw [hg.2]; rfl)]⟩
      · exact ⟨hupd_bound i _ hg.1,
          by rw [show ({ st with pc := Function.update st.pc i TaskPC.ran } :
              ExecState).files_copied = st.files_copied from rfl, hcount,
            copiedCount_update_eq plan st.pc i _ (by rw [hg.2]; rfl)]⟩
    · exact ⟨hbound, hcount⟩
  | lockSnap i =>
    simp only [step]
    split
    · rename_i hg
      have hi : i < plan.length := hbound i (by rw [hg.1]; intro hc; cases hc)
      split
      · rename_i t ht
        refine ⟨hupd_bound i _ hi, ?_⟩
        show st.files_copied + 1 = copiedCount plan (Function.update st.pc i TaskPC.locked)
        rw [copiedCount_update_incr plan st.pc i TaskPC.locked hi
          (by rw [hg.1]; rfl) rfl, hcount]
      · rename_i ht
        rw [List.getElem?_eq_none_iff] at ht
        omega
    · exact ⟨hbound, hcount⟩
  | emitRet i =>
    simp only [step]
    split
    · rename_i hg
      have hi : i < plan.length := hbound i (by rw [hg]; intro hc; cases hc)
      split
      · refine ⟨hupd_bound i _ hi, ?_⟩
        show st.files_copied = copiedCount plan (Function.update st.pc i TaskPC.doneOk)
        rw [copiedCount_update_eq plan st.pc i _ (by rw [hg]; rfl), hcount]
      · exact ⟨hbound, hcount⟩
    · exact ⟨hbound, hcount⟩
  | failRet i =>
    simp only [step]
    split
    · rename_i hg
      have hi : i < plan.length := hbound i (by rw [hg.1]; intro hc; cases hc)
      refine ⟨hupd_bound i _ hi, ?_⟩
      show st.files_copied = copiedCount plan (Function.update st.pc i TaskPC.doneFail)
      rw [copiedCount_update_eq plan st.pc i _ (by rw [hg.1]; rfl), hcount]
    · exact ⟨hbound, hcount⟩
  | collect i =>
    simp only [step]
    split
    · split
      · split
        · exact ⟨hbound, hcount⟩
        · split
          · exact ⟨hbound, hcount⟩
          · exact ⟨hbound, hcount⟩
      · exact ⟨hbound, hcount⟩
    · exact ⟨hbound, hcount⟩

theorem exec_FCInv (plan : List CopyTask) (env : CopyEnv) (sched : List Ev)
    (st : ExecState) (h : FCInv plan st) :
    FCInv plan (execSched plan env sched st) := by
  induction sched generalizing st with
  | nil => exact h
  | cons e es ih => exact ih _ (step_FCInv plan env st e h)

theorem exec_files_le_plan (plan : List CopyTask) (env : CopyEnv)
    (sched : List Ev) :
    (execSched plan env sched initExec).files_copied ≤ plan.length := by
  have h := exec_FCInv plan env sched initExec
    ⟨fun i hi => absurd rfl hi, by simp [initExec, copiedCount, countsCopied]⟩
  rw [h.2]
  exact copiedCount_le _ _

theorem execSched_append (plan : List CopyTask) (env : CopyEnv)
    (a b : List Ev) (st : ExecState) :
    execSched plan env (a ++ b) st = execSched plan env b (execSched plan env a st) := by
  simp [execSched, List.foldl_append]

/-- **C5.** Cancelling a `copyTree` run mid-flight: the terminal result is a
failure carrying `"Backup cancelled by user."`; a worker that observes the
flag at task start returns the cancelled outcome without touching the
counters; and the final `filesCopied` lies between the count at the moment
of cancellation and the number of planned tasks (tasks that finish after
the flag was set still count). -/
theorem copyTree_cancellation (plan : List CopyTask) (env : CopyEnv)
    (s1 s2 : List Ev) (st : ExecState) (i : Nat)
    (hc : st.cancelled = true) (hpc : st.pc i = TaskPC.idle)
    (hi : i < plan.length) :
    ((terminal (execSched plan env (s1 ++ Ev.cancel :: s2) initExec)).success
        = false ∧
     (terminal (execSched plan env (s1 ++ Ev.cancel :: s2) initExec)).message
        = "Backup cancelled by user.") ∧
    ((execSched plan env s1 initExec).files_copied
        ≤ (execSched plan env (s1 ++ Ev.cancel :: s2) initExec).files_copied ∧
     (execSched plan env (s1 ++ Ev.cancel :: s2) initExec).files_copied
        ≤ plan.length) ∧
    ((step plan env st (Ev.check i)).pc i = TaskPC.doneCancelled ∧
     resultOf env (step plan env st (Ev.check i)) i
        = some ⟨false, some ErrKind.cancelled⟩ ∧
     (step plan env st (Ev.check i)).files_copied = st.files_copied ∧
     (step plan env st (Ev.check i)).copied_size = st.copied_size) := by
  have hsplit : execSched plan env (s1 ++ Ev.cancel :: s2) initExec
      = execSched plan env s2
          (step plan env (execSched plan env s1 initExec) Ev.cancel) := by
    rw [execSched_append]
    rfl
  have hcanc : (execSched plan env (s1 ++ Ev.cancel :: s2) initExec).cancelled
      = true := by
    rw [hsplit]
    exact exec_cancelled_mono plan env s2 _ rfl
  refine ⟨?_, ⟨?_, exec_files_le_plan plan env _⟩, ?_⟩
  · unfold terminal
    rw [if_pos hcanc]
    exact ⟨rfl, rfl⟩
  · rw [hsplit]
    calc (execSched plan env s1 initExec).files_copied
        = (step plan env (execSched plan env s1 initExec) Ev.cancel).files_copied
          := rfl
      _ ≤ _ := exec_files_mono plan env s2 _
  · have hstep : step plan env st (Ev.check i)
        = { st with pc := Function.update st.pc i TaskPC.doneCancelled } := by
      simp only [step]
      rw [if_pos ⟨hi, hpc⟩, if_pos hc]
    rw [hstep]
    refine ⟨Function.update_same i _ st.pc, ?_, rfl, rfl⟩
    show resultOf env _ i = _
    unfold resultOf
    rw [show ({ st with pc := Function.update st.pc i TaskPC.doneCancelled } :
        ExecState).pc i = TaskPC.doneCancelled from Function.update_same i _ st.pc]

theorem resultOf_done (env : CopyEnv) (st : ExecState) (i : Nat) (r : Outcome)
    (h : resultOf env st i = some r) : isDone (st.pc i) = true := by
  unfold resultOf at h
  cases hpc : st.pc i <;> rw [hpc] at h <;> first
    | rfl
    | exact absurd h (by simp)

/-- A worker-side pc update below `done` level preserves `NCInv` (all other
fields untouched). -/
theorem NCInv_pc_update (env : CopyEnv) (st : ExecState) (i : Nat) (v : TaskPC)
    (hInv : NCInv env st)
    (hv1 : v ≠ TaskPC.doneCancelled)
    (hv2 : (v = TaskPC.locked ∨ v = TaskPC.doneOk) → copyOutcome env i = none)
    (hnotdone : isDone (st.pc i) = false)
    (st' : ExecState)
    (hpc : st'.pc = Function.update st.pc i v)
    (hfields : st'.cancelled = st.cancelled ∧ st'.errors = st.errors ∧
      st'.collected = st.collected) :
    NCInv env st' := by
  obtain ⟨hcf, hnc, hlocked, hdone, herr⟩ := hInv
  have hicol : i ∉ st.collected := fun hin => by
    rw [hdone i hin] at hnotdone
    cases hnotdone
  refine ⟨hfields.1.trans hcf, ?_, ?_, ?_, ?_⟩
  · intro j
    rw [hpc]
    by_cases hji : j = i
    · subst hji
      rw [Function.update_same]
      exact hv1
    · rw [Function.update_noteq hji]
      exact hnc j
  · intro j hj
    rw [hpc] at hj
    by_cases hji : j = i
    · subst hji
      rw [Function.update_same] at hj
      exact hv2 hj
    · rw [Function.update_noteq hji] at hj
      exact hlocked j hj
  · intro j hj
    rw [hfields.2.2] at hj
    have hji : j ≠ i := fun hc => hicol (hc ▸ hj)
    rw [hpc, Function.update_noteq hji]
    exact hdone j hj
  · rw [hfields.2.1, hfields.2.2, herr]
    congr 1
    apply List.filter_congr
    intro j hj
    have hji : j ≠ i := fun hc => hicol (hc ▸ hj)
    unfold resNotOk resultOf
    rw [hpc, Function.update_noteq hji]

theorem step_NCInv (plan : List CopyTask) (env : CopyEnv) (st : ExecState)
    (e : Ev) (hne : e ≠ Ev.cancel) (h : NCInv env st) :
    NCInv env (step plan env st e) := by
  obtain ⟨hcf, hnc, hlocked, hdone, herr⟩ := h
  cases e with
  | cancel => exact absurd rfl hne
  | check i =>
    simp only [step]
    split
    · rename_i hg
      rw [if_neg (by rw [hcf]; simp)]
      exact NCInv_pc_update env st i TaskPC.ran
        ⟨hcf, hnc, hlocked, hdone, herr⟩
        (by intro hc; cases hc)
        (by intro hor; rcases hor with hc | hc <;> cases hc)
        (by rw [hg.2]; rfl) _ rfl ⟨rfl, rfl, rfl⟩
    · exact ⟨hcf, hnc, hlocked, hdone, herr⟩
  | lockSnap i =>
    simp only [step]
    split
    · rename_i hg
      split
      · exact NCInv_pc_update env st i TaskPC.locked
          ⟨hcf, hnc, hlocked, hdone, herr⟩
          (by intro hc; cases hc)
          (fun _ => hg.2)
          (by rw [hg.1]; rfl) _ rfl ⟨rfl, rfl, rfl⟩
      · exact ⟨hcf, hnc, hlocked, hdone, herr⟩
    · exact ⟨hcf, hnc, hlocked, hdone, herr⟩
  | emitRet i =>
    simp only [step]
    split
    · rename_i hg
      split
      · exact NCInv_pc_update env st i TaskPC.doneOk
          ⟨hcf, hnc, hlocked, hdone, herr⟩
          (by intro hc; cases hc)
          (fun _ => hlocked i (Or.inl hg))
          (by rw [hg]; rfl) _ rfl ⟨rfl, rfl, rfl⟩
      · exact ⟨hcf, hnc, hlocked, hdone, herr⟩
    · exact ⟨hcf, hnc, hlocked, hdone, herr⟩
  | failRet i =>
    simp only [step]
    split
    · rename_i hg
      exact NCInv_pc_update env st i TaskPC.doneFail
        ⟨hcf, hnc, hlocked, hdone, herr⟩
        (by intro hc; cases hc)
        (by intro hor; rcases hor with hc | hc <;> cases hc)
        (by rw [hg.1]; rfl) _ rfl ⟨rfl, rfl, rfl⟩
    · exact ⟨hcf, hnc, hlocked, hdone, herr⟩
  | collect i =>
    have hfilter_new : ∀ (st' : ExecState) (l : List Nat), st'.pc = st.pc →
        l.filter (resNotOk env st') = l.filter (resNotOk env st) := by
      intro st' l hp
      apply List.filter_congr
      intro j _
      unfold resNotOk resultOf
      rw [hp]
    simp only [step]
    split
    · split
      · rename_i r hres
        rw [if_neg (by rw [hcf]; simp)]
        have hnotI : resNotOk env st i = !r.ok := by
          unfold resNotOk
          rw [hres]
        have hdone' : ∀ j ∈ st.collected ++ [i], isDone (st.pc j) = true := by
          intro j hj
          rcases List.mem_append.mp hj with hj' | hj'
          · exact hdone j hj'
          · rw [List.mem_singleton.mp hj']
            exact resultOf_done env st i r hres
        split
        · rename_i hok
          refine ⟨hcf, hnc, hlocked, hdone', ?_⟩
          have hsing : List.filter (resNotOk env st) [i] = [] := by
            rw [List.filter_singleton, hnotI, hok]
            simp
          dsimp only
          rw [hfilter_new { st with collected := st.collected ++ [i] }
            (st.collected ++ [i]) rfl, List.filter_append, hsing, List.append_nil]
          exact herr
        · rename_i hok
          refine ⟨hcf, hnc, hlocked, hdone', ?_⟩
          have hokf : r.ok = false := by
            revert hok
            cases r.ok <;> simp
          have hsing : List.filter (resNotOk env st) [i] = [i] := by
            rw [List.filter_singleton, hnotI, hokf]
            simp
          dsimp only
          rw [hfilter_new { st with errors := st.errors + 1, collected := st.collected ++ [i] }
            (st.collected ++ [i]) rfl, List.filter_append, hsing, List.length_append, herr]
          rfl
      · exact ⟨hcf, hnc, hlocked, hdone, herr⟩
    · exact ⟨hcf, hnc, hlocked, hdone, herr⟩

theorem exec_NCInv (plan : List CopyTask) (env : CopyEnv) (sched : List Ev)
    (st : ExecState) :
    Ev.cancel ∉ sched → NCInv env st → NCInv env (execSched plan env sched st) := by
  induction sched generalizing st with
  | nil => exact fun _ h => h
  | cons e es ih =>
    intro hnc h
    have hne : e ≠ Ev.cancel := fun hc => hnc (hc ▸ List.mem_cons_self e es)
    exact ih _ (fun hm => hnc (List.mem_cons_of_mem e hm))
      (step_NCInv plan env st e hne h)

theorem initExec_NCInv (env : CopyEnv) : NCInv env initExec := by
  refine ⟨rfl, ?_, ?_, ?_, rfl⟩
  · intro i hc
    simp [initExec] at hc
  · intro i hor
    rcases hor with hc | hc <;> simp [initExec] at hc
  · intro i hi
    simp [initExec] at hi

/-- **C4.** A verified copy whose digests differ yields a failure outcome
whose kind (`hash mismatch`) differs from every raw I/O exception kind, and
once the main loop collects it (without cancellation) the terminal result
counts it as an error and reports failure. -/
theorem copyTree_verify_mismatch (plan : List CopyTask) (env : CopyEnv)
    (sched : List Ev) (i : Nat)
    (hnocancel : Ev.cancel ∉ sched)
    (hexn : env.copyExn i = none)
    (hver : env.verify = true)
    (hdig : env.srcDigest i ≠ env.dstDigest i)
    (hcol : i ∈ (execSched plan env sched initExec).collected) :
    resultOf env (execSched plan env sched initExec) i
      = some ⟨false, some ErrKind.hashMismatch⟩ ∧
    (∀ m, (ErrKind.hashMismatch : ErrKind) ≠ ErrKind.ioError m) ∧
    1 ≤ (execSched plan env sched initExec).errors ∧
    (terminal (execSched plan env sched initExec)).success = false := by
  have hout : copyOutcome env i = some ErrKind.hashMismatch := by
    unfold copyOutcome
    rw [hexn]
    rw [if_pos]
    rw [hver, Bool.true_and]
    exact bne_iff_ne.mpr hdig
  obtain ⟨hcf, hnc, hlocked, hdone, herr⟩ :=
    exec_NCInv plan env sched initExec hnocancel (initExec_NCInv env)
  have hpcfail : (execSched plan env sched initExec).pc i = TaskPC.doneFail := by
    have hd := hdone i hcol
    cases hpc : (execSched plan env sched initExec).pc i
    · rw [hpc] at hd; cases hd
    · rw [hpc] at hd; cases hd
    · rw [hpc] at hd; cases hd
    · exact absurd (hlocked i (Or.inr hpc)) (by rw [hout]; simp)
    · rfl
    · exact absurd hpc (hnc i)
  have hres : resultOf env (execSched plan env sched initExec) i
      = some ⟨false, some ErrKind.hashMismatch⟩ := by
    unfold resultOf
    rw [hpcfail, hout]
  have hdist : ∀ m, (ErrKind.hashMismatch : ErrKind) ≠ ErrKind.ioError m := by
    intro m hc
    cases hc
  refine ⟨hres, hdist, ?_, ?_⟩
  · have hmem : i ∈ (execSched plan env sched initExec).collected.filter
        (resNotOk env (execSched plan env sched initExec)) := by
      apply List.mem_filter.mpr
      refine ⟨hcol, ?_⟩
      unfold resNotOk
      rw [hres]
      rfl
    rw [herr]
    exact List.length_pos.mpr (fun hc => by rw [hc] at hmem; cases hmem)
  · unfold terminal
    rw [if_neg (by rw [hcf]; simp)]
    have herrne : ¬ (execSched plan env sched initExec).errors = 0 := by
      have hmem : i ∈ (execSched plan env sched initExec).collected.filter
          (resNotOk env (execSched plan env sched initExec)) := by
        apply List.mem_filter.mpr
        refine ⟨hcol, ?_⟩
        unfold resNotOk
        rw [hres]
        rfl
      rw [herr]
      intro hc
      rw [List.length_eq_zero.mp hc] at hmem
      cases hmem
    rw [if_neg herrne]

theorem pairwiseLeB_append (l : List ProgressEvent) (x : ProgressEvent)
    (hl : pairwiseLeB l = true) (hx : ∀ s ∈ l, evLeB s x = true) :
    pairwiseLeB (l ++ [x]) = true := by
  induction l with
  | nil => rfl
  | cons a l ih =>
    simp only [pairwiseLeB, Bool.and_eq_true, List.all_eq_true] at hl
    simp only [List.cons_append, pairwiseLeB, Bool.and_eq_true, List.all_eq_true]
    constructor
    · intro b hb
      rcases List.mem_append.mp hb with hb' | hb'
      · exact hl.1 b hb'
      · rw [List.mem_singleton.mp hb']
        exact hx a (List.mem_cons_self a l)
    · exact ih hl.2 (fun s hs => hx s (List.mem_cons_of_mem a hs))

theorem step_SnapInv (plan : List CopyTask) (env : CopyEnv) (st : ExecState)
    (e : Ev) (h : SnapInv st) : SnapInv (step plan env st e) := by
  obtain ⟨hpw, hbd, hmy, hev⟩ := h
  cases e with
  | cancel => exact ⟨hpw, hbd, hmy, hev⟩
  | check i =>
    simp only [step]
    split
    · split
      · exact ⟨hpw, hbd, hmy, hev⟩
      · exact ⟨hpw, hbd, hmy, hev⟩
    · exact ⟨hpw, hbd, hmy, hev⟩
  | lockSnap i =>
    simp only [step]
    split
    · split
      · rename_i t ht
        refine ⟨?_, ?_, ?_, ?_⟩
        · apply pairwiseLeB_append _ _ hpw
          intro s hs
          have hb := hbd s hs
          unfold evLeB
          simp only [Bool.and_eq_true, decide_eq_true_eq]
          exact ⟨Nat.le_succ_of_le hb.1,
            Nat.le_trans hb.2 (Nat.le_add_right _ _)⟩
        · intro s hs
          rcases List.mem_append.mp hs with hs' | hs'
          · have hb := hbd s hs'
            exact ⟨Nat.le_succ_of_le hb.1,
              Nat.le_trans hb.2 (Nat.le_add_right _ _)⟩
          · rw [List.mem_singleton.mp hs']
            exact ⟨Nat.le_refl _, Nat.le_refl _⟩
        · intro j e' hj
          dsimp only at hj ⊢
          by_cases hji : j = i
          · subst hji
            rw [Function.update_same] at hj
            rw [← Option.some.inj hj]
            exact List.mem_append_right _ (List.mem_singleton.mpr rfl)
          · rw [Function.update_noteq hji] at hj
            exact List.mem_append_left _ (hmy j e' hj)
        · intro e' he'
          exact List.mem_append_left _ (hev e' he')
      · exact ⟨hpw, hbd, hmy, hev⟩
    · exact ⟨hpw, hbd, hmy, hev⟩
  | emitRet i =>
    simp only [step]
    split
    · split
      · rename_i ev' hm
        refine ⟨hpw, hbd, hmy, ?_⟩
        intro e' he'
        rcases List.mem_append.mp he' with h' | h'
        · exact hev e' h'
        · rw [List.mem_singleton.mp h']
          exact hmy i ev' hm
      · exact ⟨hpw, hbd, hmy, hev⟩
    · exact ⟨hpw, hbd, hmy, hev⟩
  | failRet i =>
    simp only [step]
    split
    · exact ⟨hpw, hbd, hmy, hev⟩
    · exact ⟨hpw, hbd, hmy, hev⟩
  | collect i =>
    simp only [step]
    split
    · split
      · split
        · exact ⟨hpw, hbd, hmy, hev⟩
        · split
          · exact ⟨hpw, hbd, hmy, hev⟩
          · exact ⟨hpw, hbd, hmy, hev⟩
      · exact ⟨hpw, hbd, hmy, hev⟩
    · exact ⟨hpw, hbd, hmy, hev⟩

theorem exec_SnapInv (plan : List CopyTask) (env : CopyEnv) (sched : List Ev)
    (st : ExecState) (h : SnapInv st) : SnapInv (execSched plan env sched st) := by
  induction sched generalizing st with
  | nil => exact h
  | cons e es ih => exact ih _ (step_SnapInv plan env st e h)

theorem initExec_SnapInv : SnapInv initExec := by
  refine ⟨rfl, ?_, ?_, ?_⟩
  · intro s hs
    simp [initExec] at hs
  · intro i e hi
    simp [initExec] at hi
  · intro e he
    simp [initExec] at he

/-- **C8 (counterexample).** The claim as stated is false: the snapshot is
taken under the lock but the signal is emitted after the lock is released,
so two workers can emit out of order.  In this two-task run, worker 0 and
worker 1 both pass their locked increments before either emits, and worker
1 emits first: the consumer sees `(2, 200)` then `(1, 100)` — a decrease. -/
theorem copyTree_events_not_monotone :
    pairwiseLeB (execSched planX envX schedX initExec).events = false := by
  decide

/-- **C8 (amended).** In every execution of the copy phase, the counter
snapshots taken under the lock are monotone in the order the increments
occur, and every emitted progress event carries one of these consistent
snapshots; the emitted sequence itself may reorder them, because the signal
emission happens after the lock is released. -/
theorem copyTree_snapshots_monotone (plan : List CopyTask) (env : CopyEnv)
    (sched : List Ev) :
    pairwiseLeB (execSched plan env sched initExec).snaps = true ∧
    ∀ e ∈ (execSched plan env sched initExec).events,
      e ∈ (execSched plan env sched initExec).snaps := by
  have h := exec_SnapInv plan env sched initExec initExec_SnapInv
  exact ⟨h.1, h.2.2.2⟩

/-- **C6.** A `copyTree` invocation whose planning phase finds no matching
file terminates immediately with `(0, False, "No files found …")` and emits
no progress events, before any work is dispatched, for every schedule. -/
theorem copyTree_empty_plan (fs : FS) (sourceDir destRoot : String)
    (patterns : List String) (env : CopyEnv) (sched : List Ev)
    (h : buildPlan fs sourceDir destRoot patterns = []) :
    backupRun fs sourceDir destRoot patterns env sched
      = (⟨0, false, "No files found to backup in: " ++ sourceDir⟩, []) := by
  unfold backupRun
  simp [h]

theorem fs3_scan : fastScan fs3 "/src" =
    [⟨"/src", [], ["/src/a.txt", "/src/b.txt", "/src/c.txt"]⟩] := by
  unfold fastScan
  unfold fastScanAux
  simp only [fs3, FS.scanDirs, FS.scanFiles, FS.listing]
  unfold fastScanAux
  decide

theorem fs3_planC1 : buildPlan fs3 "/src" "/dst" ["*"] = planC1 := by
  unfold buildPlan
  rw [fs3_scan]
  decide

/-- **C1.** Evaluation of the `copyTree` scenario exposing the bug: over an
absolute source tree of exactly 3 files of 100 bytes each with patterns
`["*"]` and verify on, the plan has 3 tasks totalling 300 bytes — but every
task's destination equals its source, because `fast_scan` yields full entry
paths and `BackupWorker.run` joins them onto the destination folder as if
they were bare names (`os.path.join` discards the left part for an absolute
right part).  `shutil.copy2(src, src)` raises `SameFileError` (the `envC1`
oracle), so the run ends with `filesCopied = 0`, `success = False` and no
progress events — not `filesCopied = 3, success = True` as the spec states. -/
theorem copyTree_same_file_bug :
    (buildPlan fs3 "/src" "/dst" ["*"]).length = 3 ∧
    (buildPlan fs3 "/src" "/dst" ["*"]).foldl (fun a t => a + t.fsize) 0 = 300 ∧
    (∀ t ∈ buildPlan fs3 "/src" "/dst" ["*"], t.dst = t.src) ∧
    backupRun fs3 "/src" "/dst" ["*"] envC1 schedC1
      = (⟨0, false, "DONE. Files copied: 0; Errors: 3"⟩, []) := by
  refine ⟨?_, ?_, ?_, ?_⟩
  · rw [fs3_planC1]
    rfl
  · rw [fs3_planC1]
    rfl
  · rw [fs3_planC1]
    decide
  · unfold backupRun
    rw [fs3_planC1]
    decide

theorem fsW_scan : fastScan fsW "/r" =
    [⟨"/r", ["/r/d"], ["/r/s", "/r/f"]⟩, ⟨"/r/d", [], []⟩] := by
  unfold fastScan
  unfold fastScanAux
  simp only [fsW, FS.scanDirs, FS.scanFiles, FS.listing]
  unfold fastScanAux
  simp only [fsW, FS.scanDirs, FS.scanFiles, FS.listing]
  unfold fastScanAux
  decide

theorem fastScan_no_symlink_descent_witness :
    ((⟨"/r", ["/r/d"], ["/r/s", "/r/f"]⟩ : TraversalEntry) ∈ fastScan fsW "/r" ∧
     "/r/s" ∈ fsW.listing "/r" ∧ fsW.kind "/r/s" = EntryKind.symlink) ∧
    ((∀ q ∈ (["/r/d"] : List String), fsW.kind q = EntryKind.realDir) ∧
     "/r/s" ∈ (["/r/s", "/r/f"] : List String)) := by
  have hmem : (⟨"/r", ["/r/d"], ["/r/s", "/r/f"]⟩ : TraversalEntry)
      ∈ fastScan fsW "/r" := by
    rw [fsW_scan]
    exact List.mem_cons_self _ _
  have h := fastScan_no_symlink_descent fsW "/r"
    ⟨"/r", ["/r/d"], ["/r/s", "/r/f"]⟩ hmem
  refine ⟨⟨hmem, by decide, rfl⟩, h.1, h.2.1 "/r/s" (by decide) rfl⟩

-- C3 / C10 witness: two files with the same digest, one unique

theorem fsD_scan : fastScan fsD "/d" =
    [⟨"/d", [], ["/d/a.txt", "/d/b.txt", "/d/c.txt"]⟩] := by
  unfold fastScan
  unfold fastScanAux
  simp only [fsD, FS.scanDirs, FS.scanFiles, FS.listing]
  unfold fastScanAux
  decide

theorem fsD_dups : find_duplicates fsD "/d" 0 []
    = [("h1", ["/d/b.txt", "/d/a.txt"])] := by
  unfold find_duplicates
  rw [fsD_scan]
  decide

theorem fsD_cands : dupCandidates fsD "/d" 0 []
    = [("/d/a.txt", "h1"), ("/d/b.txt", "h1"), ("/d/c.txt", "h2")] := by
  unfold dupCandidates
  rw [fsD_scan]
  decide

theorem find_duplicates_groups_witness :
    (("h1", ["/d/b.txt", "/d/a.txt"]) ∈ find_duplicates fsD "/d" 0 []) ∧
    2 ≤ (["/d/b.txt", "/d/a.txt"] : List String).length ∧
    ∀ p ∈ (["/d/b.txt", "/d/a.txt"] : List String), fsD.hashOf p = some "h1" := by
  have hmem : ("h1", ["/d/b.txt", "/d/a.txt"]) ∈ find_duplicates fsD "/d" 0 [] := by
    rw [fsD_dups]
    exact List.mem_cons_self _ _
  have h := find_duplicates_groups fsD "/d" 0 [] "h1" ["/d/b.txt", "/d/a.txt"] hmem
  exact ⟨hmem, h.1, h.2⟩

theorem find_duplicates_second_seen_first_witness :
    (("h1", ["/d/b.txt", "/d/a.txt"]) ∈ find_duplicates fsD "/d" 0 [] ∧
     (groupOcc (dupCandidates fsD "/d" 0 []) "h1").head? = some "/d/a.txt" ∧
     (groupOcc (dupCandidates fsD "/d" 0 []) "h1")[1]? = some "/d/b.txt" ∧
     "/d/a.txt" ≠ "/d/b.txt") ∧
    ((["/d/b.txt", "/d/a.txt"] : List String).head? = some "/d/b.txt" ∧
     (["/d/b.txt", "/d/a.txt"] : List String)[1]? = some "/d/a.txt" ∧
     (["/d/b.txt", "/d/a.txt"] : List String).head? ≠ some "/d/a.txt") := by
  have hmem : ("h1", ["/d/b.txt", "/d/a.txt"]) ∈ find_duplicates fsD "/d" 0 [] := by
    rw [fsD_dups]
    exact List.mem_cons_self _ _
  have h0 : (groupOcc (dupCandidates fsD "/d" 0 []) "h1").head? = some "/d/a.txt" := by
    rw [fsD_cands]
    decide
  have h1 : (groupOcc (dupCandidates fsD "/d" 0 []) "h1")[1]? = some "/d/b.txt" := by
    rw [fsD_cands]
    decide
  have hne : ("/d/a.txt" : String) ≠ "/d/b.txt" := by decide
  have h := find_duplicates_second_seen_first fsD "/d" 0 [] "h1"
    ["/d/b.txt", "/d/a.txt"] "/d/a.txt" "/d/b.txt" hmem h0 h1 hne
  exact ⟨⟨hmem, h0, h1, hne⟩, h⟩

theorem copyTree_verify_mismatch_witness :
    (Ev.cancel ∉ sched4 ∧ env4.copyExn 0 = none ∧ env4.verify = true ∧
     env4.srcDigest 0 ≠ env4.dstDigest 0 ∧
     0 ∈ (execSched plan4 env4 sched4 initExec).collected) ∧
    (resultOf env4 (execSched plan4 env4 sched4 initExec) 0
       = some ⟨false, some ErrKind.hashMismatch⟩ ∧
     1 ≤ (execSched plan4 env4 sched4 initExec).errors ∧
     (terminal (execSched plan4 env4 sched4 initExec)).success = false) := by
  have h := copyTree_verify_mismatch plan4 env4 sched4 0
    (by decide) rfl rfl (by decide) (by decide)
  exact ⟨⟨by decide, rfl, rfl, by decide, by decide⟩, h.1, h.2.2.1, h.2.2.2⟩

-- C5 witness: one task completes, then the cancel flag rises

theorem copyTree_cancellation_witness :
    (stC5.cancelled = true ∧ stC5.pc 0 = TaskPC.idle ∧ 0 < plan4.length) ∧
    ((terminal (execSched plan4 env4 (s1C5 ++ Ev.cancel :: []) initExec)).success
        = false ∧
     (terminal (execSched plan4 env4 (s1C5 ++ Ev.cancel :: []) initExec)).message
        = "Backup cancelled by user." ∧
     (execSched plan4 env4 s1C5 initExec).files_copied
        ≤ (execSched plan4 env4 (s1C5 ++ Ev.cancel :: []) initExec).files_copied ∧
     (execSched plan4 env4 (s1C5 ++ Ev.cancel :: []) initExec).files_copied
        ≤ plan4.length ∧
     (step plan4 env4 stC5 (Ev.check 0)).pc 0 = TaskPC.doneCancelled ∧
     resultOf env4 (step plan4 env4 stC5 (Ev.check 0)) 0
        = some ⟨false, some ErrKind.cancelled⟩) := by
  have h := copyTree_cancellation plan4 env4 s1C5 [] stC5 0 rfl rfl (by decide)
  exact ⟨⟨rfl, rfl, by decide⟩,
    h.1.1, h.1.2, h.2.1.1, h.2.1.2, h.2.2.1, h.2.2.2.1⟩

-- C6 witness: a source tree with no files at all

theorem fsE_plan : buildPlan fsE "/e" "/dst" ["*"] = [] := by
  unfold buildPlan
  unfold fastScan
  unfold fastScanAux
  simp only [fsE, FS.scanDirs, FS.scanFiles, FS.listing]
  unfold fastScanAux
  decide

theorem copyTree_empty_plan_witness :
    buildPlan fsE "/e" "/dst" ["*"] = [] ∧
    backupRun fsE "/e" "/dst" ["*"] env4 []
      = (⟨0, false, "No files found to backup in: /e"⟩, []) := by
  refine ⟨fsE_plan, ?_⟩
  have h := copyTree_empty_plan fsE "/e" "/dst" ["*"] env4 [] fsE_plan
  exact h

-- C7 witness: one pass pins the modes, a second changes nothing

theorem fs3_items : allItems fs3 ["/src"]
    = ["/src", "/src/a.txt", "/src/b.txt", "/src/c.txt"] := by
  unfold allItems
  simp only [List.foldl_cons, List.foldl_nil]
  rw [fs3_scan]
  decide

theorem normalizePermissions_idempotent_witness :
    (permissionRun fs3 (allItems fs3 ["/src"])
        (permissionRun fs3 (allItems fs3 ["/src"]) (fun _ => 0))
      = permissionRun fs3 (allItems fs3 ["/src"]) (fun _ => 0)) ∧
    permissionRun fs3 (allItems fs3 ["/src"]) (fun _ => 0) "/src/a.txt" = 0o666 ∧
    permissionRun fs3 (allItems fs3 ["/src"]) (fun _ => 0) "/src" = 0o777 := by
  have h := normalizePermissions_idempotent fs3 ["/src"] (fun _ => 0)
  refine ⟨h.1, ?_, ?_⟩
  · have := h.2 "/src/a.txt" (by rw [fs3_items]; decide) rfl
    rw [this]
    decide
  · have := h.2 "/src" (by rw [fs3_items]; decide) rfl
    rw [this]
    decide

end SAK
